import Mathlib

/-!
Verification of the router core: controller composition, declaration-index
stamping, lifecycle hook chains, the dependency-injection container,
parameter resolution, the request pipeline, header merging and response
streaming. Each subsystem is embedded as executable Lean definitions
mirroring the TypeScript source, and the stated properties are settled
against them.
-/

namespace Router

/-! ### Association lists

JavaScript objects and `Map`s keep insertion order; both are embedded as
association lists where `aset` replaces an existing key in place and
appends a new key at the end, matching JS assignment/`Map.set`. -/

def aget {α β : Type} [DecidableEq α] : List (α × β) → α → Option β
  | [], _ => none
  | (k, v) :: rest, a => if k = a then some v else aget rest a

def aset {α β : Type} [DecidableEq α] : List (α × β) → α → β → List (α × β)
  | [], a, b => [(a, b)]
  | (k, v) :: rest, a, b => if k = a then (a, b) :: rest else (k, v) :: aset rest a b

/-! ### Header merging (`assignHeaders`, src/unnamed/part_000 lines 47-58)

Header values are JS strings or arrays; an array element can be the JS
value `undefined` (modelled as `none`), which is exactly what
`[headers[name]!, ...value]` produces when `headers[name]` is absent. -/

inductive HVal where
  | str (s : String)
  | arr (elems : List (Option String))
deriving DecidableEq, Repr

/-- Embedding of `assignHeaders(headers, init)` from src/unnamed/part_000:
for each `name in init`, an array value is concatenated onto the existing
entry (`[...headers[name], ...value]` when the existing entry is an array,
`[headers[name]!, ...value]` otherwise — note the non-null assertion), and
a scalar value overwrites. -/
def assignHeaders (headers : List (String × HVal)) (dst : List (String × HVal)) :
    List (String × HVal) :=
  dst.foldl (fun hs p =>
    match p.2 with
    | .arr vs =>
        match aget hs p.1 with
        | some (.arr ws) => aset hs p.1 (.arr (ws ++ vs))
        | some (.str s) => aset hs p.1 (.arr (some s :: vs))
        | none => aset hs p.1 (.arr (none :: vs))
    | .str s => aset hs p.1 (.str s)) headers

/-! ### JS numbers for declaration indices

`Controller.use` assigns `this.#handlerIndex = NaN`; thereafter
`this.#handlerIndex++` yields `NaN` forever and every `<`/`>` comparison
against it is false. `JSNum` captures exactly the integers plus `NaN`. -/

inductive JSNum where
  | num (n : Int)
  | nan
deriving DecidableEq, Repr

/-- Post-increment: `i++` stamps the old value and stores `old + 1`;
`NaN + 1` is `NaN`. -/
def JSNum.inc : JSNum → JSNum
  | .num n => .num (n + 1)
  | .nan => .nan

/-- JS `<` on numbers: any comparison involving `NaN` is false. -/
def JSNum.ltb : JSNum → JSNum → Bool
  | .num a, .num b => a < b
  | _, _ => false

def JSNum.isNum : JSNum → Bool
  | .num _ => true
  | .nan => false

/-! ### Declaration-index stamping (src/controller.ts)

`route`, `hook` and each route copied by `mount` stamp
`this.#handlerIndex++`; `use(router)` first sets `#handlerIndex = NaN`
(src/controller.ts line 170, src/unnamed/part_000 line 234) and then
mounts every route of the used controller. The registration operations
are abstracted to the index traffic they generate. -/

inductive RegOp where
  | route
  | hookReg
  | mountOp (k : Nat)
  | useOp (k : Nat)
deriving DecidableEq, Repr

structure IdxState where
  handlerIndex : JSNum
  assigned : List JSNum
deriving DecidableEq, Repr

/-- One `this.#handlerIndex++` stamp: records the current counter value
and post-increments it. -/
def stamp (s : IdxState) : IdxState :=
  ⟨s.handlerIndex.inc, s.assigned ++ [s.handlerIndex]⟩

def stampN : Nat → IdxState → IdxState
  | 0, s => s
  | k + 1, s => stampN k (stamp s)

/-- `route`/`hook` stamp once; `mount` stamps once per copied route;
`use` sets the counter to `NaN` and then mounts. -/
def stepOp (s : IdxState) : RegOp → IdxState
  | .route => stamp s
  | .hookReg => stamp s
  | .mountOp k => stampN k s
  | .useOp k => stampN k ⟨.nan, s.assigned⟩

def runOps (ops : List RegOp) : IdxState :=
  ops.foldl stepOp ⟨.num 0, []⟩

/-- Number of index stamps an operation performs. -/
def cnt : RegOp → Nat
  | .route => 1
  | .hookReg => 1
  | .mountOp k => k
  | .useOp k => k

def totalCnt (ops : List RegOp) : Nat := (ops.map cnt).sum

def hasUse : List RegOp → Bool
  | [] => false
  | .useOp _ :: _ => true
  | _ :: rest => hasUse rest

/-- `i + k` with `NaN` absorbing. -/
def JSNum.incN : JSNum → Nat → JSNum
  | .num n, k => .num (n + k)
  | .nan, _ => .nan

/-- The index values produced by `k` consecutive post-increment stamps
starting from a given counter value. -/
def stampsFrom : JSNum → Nat → List JSNum
  | .nan, k => List.replicate k .nan
  | .num i, k => (List.range k).map fun (j : Nat) => .num (i + (j : Int))

/-- The counter value an operation starts stamping from: `use` resets to
`NaN` first. -/
def startIdx (i : JSNum) : RegOp → JSNum
  | .useOp _ => .nan
  | _ => i

/-- Closed form of the index sequence a list of operations assigns when
the counter starts at `i`. -/
def specFrom : List RegOp → JSNum → List JSNum
  | [], _ => []
  | op :: rest, i =>
      stampsFrom (startIdx i op) (cnt op) ++ specFrom rest ((startIdx i op).incN (cnt op))

/-- Closed form of the final counter value. -/
def idxAfter : List RegOp → JSNum → JSNum
  | [], i => i
  | op :: rest, i => idxAfter rest ((startIdx i op).incN (cnt op))

/-- The claim's invariant: every assigned index is an integer strictly
greater than all previously assigned indices of the controller. -/
def allIncreasingInts (l : List JSNum) : Prop :=
  l.all JSNum.isNum = true ∧ l.Pairwise (fun a b => a.ltb b = true)

instance (l : List JSNum) : Decidable (allIncreasingInts l) := by
  unfold allIncreasingInts; infer_instance

/-! ### Route registration (`Controller.route` / `#methodRoute`,
src/controller.ts lines 154-163 and 222-259)

A path maps to either a single catch-all entry or a map from HTTP method
to entry; route values are abstracted to labels. -/

inductive REntry where
  | single (v : Nat)
  | methods (ms : List (String × Nat))
deriving DecidableEq, Repr

abbrev RTable := List (String × REntry)

/-- Path normalization `path.replace(/^\/?/, '/')`: prepend `/` when the
path does not already begin with one. -/
def normPath (p : String) : String :=
  if p.data.head? = some '/' then p else "/" ++ p

/-- Embedding of `Controller.route(path, {method, ...})` restricted to its
route-table effect (the static-mount special case registers through
`mount` instead and touches no table entry directly). `method = none` is
a catch-all registration; `#methodRoute` rejects a path held by a
catch-all entry. -/
def routeReg (t : RTable) (path : String) (method : Option String) (v : Nat) :
    Except String RTable :=
  let p := normPath path
  match method with
  | none =>
      if (aget t p).isSome then .error "Route already exists for this path"
      else .ok (aset t p (.single v))
  | some m =>
      match aget t p with
      | some (.single _) => .error "Route already exists for this path"
      | some (.methods ms) =>
          if (aget ms m).isSome then .error "Route already exists for this method"
          else .ok (aset t p (.methods (ms ++ [(m, v)])))
      | none => .ok (aset t p (.methods [(m, v)]))

/-- Lookup of the route registered at a path (+ optional method). -/
def routeAt (t : RTable) (p : String) (method : Option String) : Option Nat :=
  match aget t p, method with
  | some (.single v), none => some v
  | some (.methods ms), some m => aget ms m
  | _, _ => none

/-! ### Hook registration (`Controller.hook`, src/controller.ts
lines 260-278)

`RequestLifecycleHook` in src/controller.ts holds exactly three kinds;
`hook` rejects anything else with `Invalid hook: <name>` before stamping
the next declaration index. -/

def RequestLifecycleHook : List String := ["beforeHandle", "afterHandle", "mapResponse"]

structure HookRec where
  index : JSNum
  propertyKey : String
deriving DecidableEq, Repr

structure CtrlReg where
  handlerIndex : JSNum
  hookLists : List (String × List HookRec)
deriving DecidableEq, Repr

/-- Embedding of `Controller.hook({hook: name, propertyKey})`. -/
def hookOp (c : CtrlReg) (name pk : String) : Except String CtrlReg :=
  if name ∈ RequestLifecycleHook then
    let hooks := (aget c.hookLists name).getD []
    .ok ⟨c.handlerIndex.inc,
         aset c.hookLists name (hooks ++ [⟨c.handlerIndex, pk⟩])⟩
  else .error ("Invalid hook: " ++ name)

/-! ### Effective hook chains (`Controller.hooks`, src/controller.ts
lines 103-133; `Controller.#hooks`, src/unnamed/part_000 lines 135-165)

For chain computation a controller contributes its per-kind hook lists
and the verbatim hook lists of each `use`d controller; a route carries
its declaring controller, its declaration index, and its environment
chain of ancestor mount records (each itself a route record whose
controller is the mounting controller and whose index is the mount
operation's index). -/

inductive HookKind where
  | beforeHandle
  | afterHandle
  | mapResponse
deriving DecidableEq, Repr

structure HookEntry where
  owner : Nat
  index : JSNum
deriving DecidableEq, Repr

structure HookLists where
  beforeHandle : List HookEntry
  afterHandle : List HookEntry
  mapResponse : List HookEntry
deriving DecidableEq, Repr

def HookLists.get (h : HookLists) : HookKind → List HookEntry
  | .beforeHandle => h.beforeHandle
  | .afterHandle => h.afterHandle
  | .mapResponse => h.mapResponse

structure CtrlHooks where
  useList : List HookLists
  hookList : HookLists
deriving DecidableEq, Repr

inductive RouteT where
  | mk (ctrl : CtrlHooks) (index : JSNum) (env : List RouteT)

def RouteT.ctrlOf : RouteT → CtrlHooks
  | .mk c _ _ => c

def RouteT.idxOf : RouteT → JSNum
  | .mk _ i _ => i

def RouteT.envOf : RouteT → List RouteT
  | .mk _ _ e => e

/-- Embedding of the `hooks` generator: for `beforeHandle` it walks the
environment chain in reverse recursively, then yields every used
controller's list verbatim, then the local hooks whose index is `<` the
route's index; for the after kinds it mirrors: local hooks with index
`>`, used controllers, environment chain forward. -/
def hooksOf (k : HookKind) : RouteT → List HookEntry
  | .mk c idx env =>
    match k with
    | .beforeHandle =>
        (env.reverse.attach.flatMap fun e =>
          have : sizeOf e.1 < 1 + sizeOf c + sizeOf idx + sizeOf env := by
            have h1 : e.1 ∈ env := List.mem_reverse.mp e.2
            have h2 := List.sizeOf_lt_of_mem h1
            omega
          hooksOf .beforeHandle e.1)
        ++ (c.useList.flatMap fun h => h.get .beforeHandle)
        ++ ((c.hookList.get .beforeHandle).filter fun h => h.index.ltb idx)
    | .afterHandle =>
        ((c.hookList.get .afterHandle).filter fun h => idx.ltb h.index)
        ++ (c.useList.flatMap fun h => h.get .afterHandle)
        ++ (env.attach.flatMap fun e =>
          have : sizeOf e.1 < 1 + sizeOf c + sizeOf idx + sizeOf env := by
            have h2 := List.sizeOf_lt_of_mem e.2
            omega
          hooksOf .afterHandle e.1)
    | .mapResponse =>
        ((c.hookList.get .mapResponse).filter fun h => idx.ltb h.index)
        ++ (c.useList.flatMap fun h => h.get .mapResponse)
        ++ (env.attach.flatMap fun e =>
          have : sizeOf e.1 < 1 + sizeOf c + sizeOf idx + sizeOf env := by
            have h2 := List.sizeOf_lt_of_mem e.2
            omega
          hooksOf .mapResponse e.1)
termination_by r => sizeOf r

/-- Full hook lists of every `use`d controller, in push order, with no
index filtering. -/
def usedOf (c : CtrlHooks) (k : HookKind) : List HookEntry :=
  c.useList.flatMap fun h => h.get k

/-- Local hooks declared before the given index (before-kind filter). -/
def localBefore (c : CtrlHooks) (idx : JSNum) (k : HookKind) : List HookEntry :=
  (c.hookList.get k).filter fun h => h.index.ltb idx

/-- Local hooks declared after the given index (after-kind filter). -/
def localAfter (c : CtrlHooks) (idx : JSNum) (k : HookKind) : List HookEntry :=
  (c.hookList.get k).filter fun h => idx.ltb h.index

/-- One ancestor mount record's recursive contribution, in the shape
`mount`/`use` actually create (records carry no environment of their
own, src/controller.ts lines 192-200): its controller's used hooks and
its local hooks filtered against the mount's own declaration index. -/
def envContrib (k : HookKind) (e : RouteT) : List HookEntry :=
  match k with
  | .beforeHandle => usedOf e.ctrlOf k ++ localBefore e.ctrlOf e.idxOf k
  | _ => localAfter e.ctrlOf e.idxOf k ++ usedOf e.ctrlOf k

/-- The claim's closed-form chain: environment chain in reverse, used
controllers, locals for before-kinds; the exact mirror for after-kinds. -/
def flatChain (k : HookKind) (c : CtrlHooks) (idx : JSNum) (env : List RouteT) :
    List HookEntry :=
  match k with
  | .beforeHandle =>
      env.reverse.flatMap (envContrib k) ++ usedOf c k ++ localBefore c idx k
  | _ => localAfter c idx k ++ usedOf c k ++ env.flatMap (envContrib k)

/-! ### `checkBodyPresence` (src/unnamed/part_000 lines 17-31,
src/unnamed/part_006 lines 96-110)

Parameter descriptors are constructor references or leaf descriptors
with an identifier string; the constructor's design paramtypes live in a
finite environment. The JS recursion threads one mutable `checked` set,
embedded here by returning the grown set; a fuel argument stands in for
the call stack, and termination of the source recursion is the statement
that sufficient fuel always exists. -/

inductive ParamTy where
  | ctor (t : Nat)
  | leaf (identifier : String)
deriving DecidableEq, Repr

abbrev ParamEnv := List (Nat × List ParamTy)

/-- `getParamTypes(type)` for a constructor: its declared paramtypes, or
an empty list for a constructor with no stored metadata. -/
def getParams (env : ParamEnv) (t : Nat) : List ParamTy :=
  (aget env t).getD []

/-- Embedding of `checkBodyPresence(paramtypes, checked)`: leaves with
identifier `body` answer true; an unchecked constructor is added to
`checked` and its paramtypes are scanned recursively with the same
(threaded) set. `none` models a call stack deeper than `fuel`. -/
def checkBody (env : ParamEnv) : Nat → List ParamTy → List Nat → Option (Bool × List Nat)
  | _, [], checked => some (false, checked)
  | fuel, .leaf id :: rest, checked =>
      if id = "body" then some (true, checked) else checkBody env fuel rest checked
  | fuel, .ctor t :: rest, checked =>
      if t ∈ checked then checkBody env fuel rest checked
      else
        match fuel with
        | 0 => none
        | f + 1 =>
            match checkBody env f (getParams env t) (t :: checked) with
            | none => none
            | some (true, c) => some (true, c)
            | some (false, c) => checkBody env (f + 1) rest c
termination_by fuel l _ => (fuel, l.length)

/-- Constructors of the environment not yet in the checked set: the
recursion depth is bounded by their number. -/
def keysLeft (env : ParamEnv) (checked : List Nat) : Nat :=
  ((env.map Prod.fst).dedup.filter fun t => t ∉ checked).length

/-! ### Dependency injection (`construct`, src/service.ts lines 150-158;
`mapParams`, src/unnamed/part_004 lines 24-92 and src/unnamed/part_005
lines 24-92)

Instances are identified by allocation order: `new`/`Reflect.construct`
hands out the next id after its arguments have been produced. The
singleton cache (`bucket` over a `WeakMap`) lives in `DIState`; the
per-request cache `ctx._instances` lives in `Ctx`. Leaf descriptors
resolve to request-derived values, abstracted as `Val.leafVal` of their
identifier; the identifiers accepted by the `switch` are `knownIds`,
anything else is the `default: throw new TypeError()` arm. Cyclic
constructor graphs make the JS recursion diverge; `none` on exhausted
fuel models that divergence (and every thrown `TypeError`). -/

inductive Scope where
  | SINGLETON
  | REQUEST
  | INSTANCE
deriving DecidableEq, Repr

structure DIEnv where
  scopes : List (Nat × Scope)
  params : ParamEnv
deriving DecidableEq, Repr

def getScope (env : DIEnv) (t : Nat) : Option Scope := aget env.scopes t

structure DIState where
  nextId : Nat
  singles : List (Nat × Nat)
deriving DecidableEq, Repr

structure Ctx where
  instances : List (Nat × Nat)
deriving DecidableEq, Repr

inductive Val where
  | inst (i : Nat)
  | leafVal (identifier : String)
deriving DecidableEq, Repr

def knownIds : List String :=
  ["url", "request", "server", "rawResponse", "response", "responseInit",
   "store", "params", "query", "cookie", "body"]

/-- The `getParamTypes(constructor).map(...)` loop inside `construct`:
every paramtype must itself be a constructor reference, and each is
constructed in order by the supplied recursive constructor (`construct`
with the remaining stack budget), threading the instance state. -/
def constructArgsGo (recur : DIState → Nat → Option (Nat × DIState)) :
    DIState → List ParamTy → Option (List Nat × DIState)
  | st, [] => some ([], st)
  | _, .leaf _ :: _ => none
  | st, .ctor t :: rest =>
      match recur st t with
      | none => none
      | some (i, st1) =>
          match constructArgsGo recur st1 rest with
          | none => none
          | some (is, st2) => some (i :: is, st2)

/-- Embedding of `construct` (src/service.ts): on a cache miss the type
must be registered `SINGLETON`; its constructor paramtypes are
constructed recursively, then the instance is allocated and cached. -/
def construct (env : DIEnv) : Nat → DIState → Nat → Option (Nat × DIState)
  | 0, st, t =>
      match aget st.singles t with
      | some i => some (i, st)
      | none => none
  | f + 1, st, t =>
      match aget st.singles t with
      | some i => some (i, st)
      | none =>
          if getScope env t = some .SINGLETON then
            match constructArgsGo (fun st1 t1 => construct env f st1 t1) st
                (getParams env.params t) with
            | none => none
            | some (_, st1) =>
                some (st1.nextId, ⟨st1.nextId + 1, aset st1.singles t st1.nextId⟩)
          else none

/-- Embedding of `mapParams` from src/unnamed/part_004: NOTE the source
writes `return` (not `continue`) after each scope case of a constructor
reference, so the generator stops after the first constructor-reference
descriptor; the descriptors after it are never resolved. -/
def mapParams (env : DIEnv) : Nat → DIState → Ctx → List ParamTy → Option (List Val × DIState × Ctx)
  | _, st, ctx, [] => some ([], st, ctx)
  | fuel, st, ctx, .leaf id :: rest =>
      if id ∈ knownIds then
        match mapParams env fuel st ctx rest with
        | none => none
        | some (vs, st1, ctx1) => some (.leafVal id :: vs, st1, ctx1)
      else none
  | fuel, st, ctx, .ctor t :: _ =>
      match getScope env t with
      | some .SINGLETON =>
          match construct env fuel st t with
          | none => none
          | some (i, st1) => some ([.inst i], st1, ctx)
      | some .REQUEST =>
          match aget ctx.instances t with
          | some i => some ([.inst i], st, ctx)
          | none =>
              match fuel with
              | 0 => none
              | f + 1 =>
                  match mapParams env f st ctx (getParams env.params t) with
                  | none => none
                  | some (_, st1, ctx1) =>
                      some ([.inst st1.nextId], ⟨st1.nextId + 1, st1.singles⟩,
                            ⟨aset ctx1.instances t st1.nextId⟩)
      | some .INSTANCE =>
          match fuel with
          | 0 => none
          | f + 1 =>
              match mapParams env f st ctx (getParams env.params t) with
              | none => none
              | some (_, st1, ctx1) =>
                  some ([.inst st1.nextId], ⟨st1.nextId + 1, st1.singles⟩, ctx1)
      | none => none
termination_by fuel _ _ l => (fuel, l.length)

/-- Embedding of `mapParams` from src/unnamed/part_005 (and the generator
in src/unnamed/part_006 lines 20-34), which `continue`s after a
constructor-reference descriptor and therefore resolves every
descriptor: `params.push(instance); continue;`. A descriptor whose scope
is not `SINGLETON` or cached `REQUEST` falls through to
`Reflect.construct` (caching the instance only when the scope is
`REQUEST`). -/
def mapParamsSeq (env : DIEnv) : Nat → DIState → Ctx → List ParamTy → Option (List Val × DIState × Ctx)
  | _, st, ctx, [] => some ([], st, ctx)
  | fuel, st, ctx, .leaf id :: rest =>
      if id ∈ knownIds then
        match mapParamsSeq env fuel st ctx rest with
        | none => none
        | some (vs, st1, ctx1) => some (.leafVal id :: vs, st1, ctx1)
      else none
  | fuel, st, ctx, .ctor t :: rest =>
      match getScope env t with
      | some .SINGLETON =>
          match construct env fuel st t with
          | none => none
          | some (i, st1) =>
              match mapParamsSeq env fuel st1 ctx rest with
              | none => none
              | some (vs, st2, ctx2) => some (.inst i :: vs, st2, ctx2)
      | some .REQUEST =>
          match aget ctx.instances t with
          | some i =>
              match mapParamsSeq env fuel st ctx rest with
              | none => none
              | some (vs, st1, ctx1) => some (.inst i :: vs, st1, ctx1)
          | none =>
              match fuel with
              | 0 => none
              | f + 1 =>
                  match mapParamsSeq env f st ctx (getParams env.params t) with
                  | none => none
                  | some (_, st1, ctx1) =>
                      match mapParamsSeq env (f + 1) ⟨st1.nextId + 1, st1.singles⟩
                          ⟨aset ctx1.instances t st1.nextId⟩ rest with
                      | none => none
                      | some (vs, st2, ctx2) => some (.inst st1.nextId :: vs, st2, ctx2)
      | some .INSTANCE =>
          match fuel with
          | 0 => none
          | f + 1 =>
              match mapParamsSeq env f st ctx (getParams env.params t) with
              | none => none
              | some (_, st1, ctx1) =>
                  match mapParamsSeq env (f + 1) ⟨st1.nextId + 1, st1.singles⟩ ctx1 rest with
                  | none => none
                  | some (vs, st2, ctx2) => some (.inst st1.nextId :: vs, st2, ctx2)
      | none =>
          match fuel with
          | 0 => none
          | f + 1 =>
              match mapParamsSeq env f st ctx (getParams env.params t) with
              | none => none
              | some (_, st1, ctx1) =>
                  match mapParamsSeq env (f + 1) ⟨st1.nextId + 1, st1.singles⟩ ctx1 rest with
                  | none => none
                  | some (vs, st2, ctx2) => some (.inst st1.nextId :: vs, st2, ctx2)
termination_by fuel _ _ l => (fuel, l.length)

/-! ### Request pipeline (`compileHandler`, src/compose.ts lines 160-191;
the same `try`/`finally` shape appears in src/unnamed/part_004
lines 140-187)

Hook and handler invocations are abstracted to their observable
behaviour: return `undefined`, return a defined value, or throw. The
pipeline records every invocation in a trace and either produces a
response or propagates an exception. -/

inductive HBeh where
  | ret (v : Option Nat)
  | thr
deriving DecidableEq, Repr

inductive StageLabel where
  | before (i : Nat)
  | handle
  | after (i : Nat)
deriving DecidableEq, Repr

inductive Resp where
  | ok (v : Nat)
  | notFound
deriving DecidableEq, Repr

inductive TryOut where
  | exc (trace : List StageLabel)
  | resp (trace : List StageLabel) (r : Resp)
deriving DecidableEq, Repr

/-- The `try` block of `compileHandler`: beforeHandle hooks in order
(first defined result returns), then the handler (`undefined` falls
through to the 404 response, src/compose.ts lines 175-178); a throw
leaves the block with `ctx._fulfilled` still false. -/
def runTryAux : List HBeh → HBeh → Nat → List StageLabel → TryOut
  | [], h, _, tr =>
      match h with
      | .thr => .exc (tr ++ [.handle])
      | .ret none => .resp (tr ++ [.handle]) .notFound
      | .ret (some v) => .resp (tr ++ [.handle]) (.ok v)
  | b :: rest, h, i, tr =>
      match b with
      | .thr => .exc (tr ++ [.before i])
      | .ret (some v) => .resp (tr ++ [.before i]) (.ok v)
      | .ret none => runTryAux rest h (i + 1) (tr ++ [.before i])

/-- The afterHandle loop inside the `finally` block: every hook runs (a
defined result replaces the response but does not stop the loop); a
throw inside `finally` propagates. If no after hook produced a defined
result, the try block's response stands. -/
def runAfterAux : List HBeh → Nat → List StageLabel → Resp → Option Resp →
    List StageLabel × Except Unit Resp
  | [], _, tr, orig, last => (tr, .ok (last.getD orig))
  | b :: rest, i, tr, orig, last =>
      match b with
      | .thr => (tr ++ [.after i], .error ())
      | .ret none => runAfterAux rest (i + 1) (tr ++ [.after i]) orig last
      | .ret (some v) => runAfterAux rest (i + 1) (tr ++ [.after i]) orig (some (.ok v))

/-- Embedding of the compiled per-request pipeline: the `finally` block
runs the afterHandle hooks only under `if (ctx._fulfilled && afterHandle)`
(src/compose.ts line 180, src/unnamed/part_004 line 173), so an
exception leaves with the after stage untouched. -/
def runPipe (befores : List HBeh) (h : HBeh) (afters : List HBeh) :
    List StageLabel × Except Unit Resp :=
  match runTryAux befores h 0 [] with
  | .exc tr => (tr, .error ())
  | .resp tr r => runAfterAux afters 0 tr r none

/-! ### Generator streaming (`onHandle`, src/unnamed/part_004
lines 95-127)

A generator handler's yields are a list of JS values (`none` is an
`undefined` yield, skipped by `typeof chunk !== 'undefined' &&
controller.enqueue(chunk)`); if the generator finishes on the first
`next()` its return value is the whole body. The abort signal is a
discrete event firing after `k` loop pulls have completed; the loop body
pulls the next chunk and only then checks the `end` flag
(`for await (const chunk of res) { if (end) break; ... }`). -/

def drainLoop (k : Option Nat) : List (Option String) → Nat → List String →
    List String × Nat
  | [], pulls, acc => (acc, pulls)
  | c :: rest, pulls, acc =>
      let aborted := match k with
        | some kk => decide (kk < pulls + 1)
        | none => false
      if aborted then (acc, pulls + 1)
      else drainLoop k rest (pulls + 1) (acc ++ c.toList)

/-- Embedding of the generator branch of `onHandle`: the first `next()`
either finishes the generator (its return value is the body) or yields
the initial chunk, after which the remainder is drained through the
`ReadableStream` pull loop. Results: enqueued chunks, number of loop
pulls, and whether a stream was created. -/
def onHandleGen (ys : List (Option String)) (retv : Option String) (k : Option Nat) :
    List String × Nat × Bool :=
  match ys with
  | [] => (retv.toList, 0, false)
  | y0 :: rest =>
      let p := drainLoop k rest 0 y0.toList
      (p.1, p.2, true)

/-! ## Theorems -/

/-! ### Association-list lemmas -/

theorem aget_aset_self {α β : Type} [DecidableEq α] (l : List (α × β)) (a : α) (b : β) :
    aget (aset l a b) a = some b := by
  induction l with
  | nil => simp [aget, aset]
  | cons p rest ih =>
      by_cases h : p.1 = a
      · simp [aget, aset, h]
      · simp [aget, aset, h, ih]

theorem aget_aset_ne {α β : Type} [DecidableEq α] (l : List (α × β)) (a c : α) (b : β)
    (h : a ≠ c) : aget (aset l a b) c = aget l c := by
  induction l with
  | nil => simp [aget, aset, h]
  | cons p rest ih =>
      by_cases hp : p.1 = a
      · simp [aget, aset, hp, h]
      · simp only [aset, if_neg hp, aget]
        by_cases hc : p.1 = c <;> simp [hc, ih]

theorem aget_append_left {α β : Type} [DecidableEq α] (l₁ l₂ : List (α × β)) (a : α) (b : β)
    (h : aget l₁ a = some b) : aget (l₁ ++ l₂) a = some b := by
  induction l₁ with
  | nil => simp [aget] at h
  | cons p rest ih =>
      by_cases hp : p.1 = a
      · simpa [aget, hp] using h
      · simp only [aget, if_neg hp] at h
        simpa [aget, hp] using ih h

theorem aget_append_right {α β : Type} [DecidableEq α] (l₁ l₂ : List (α × β)) (a : α)
    (h : aget l₁ a = none) : aget (l₁ ++ l₂) a = aget l₂ a := by
  induction l₁ with
  | nil => simp
  | cons p rest ih =>
      by_cases hp : p.1 = a
      · simp [aget, hp] at h
      · simp only [aget, if_neg hp] at h
        simpa [aget, hp] using ih h

/-! ### C6 — header merging -/

/-- C6: the claim fails on the record-based `assignHeaders` of
src/unnamed/part_000 (lines 47-58). Merging an array-valued header whose
name is absent from the accumulated map does not yield exactly that
side's value: `[headers[name]!, ...value]` evaluates with
`headers[name]` undefined, so the merged entry gains a leading
`undefined` element. The `Headers`-based rewrite in src/unnamed/part_008
(lines 203-215) appends element-wise and avoids this. -/
theorem assignHeaders_missing_key_array :
    assignHeaders [] [("x", .arr [some "a", some "b"])]
      = [("x", HVal.arr [none, some "a", some "b"])] ∧
    assignHeaders [] [("x", .arr [some "a", some "b"])]
      ≠ [("x", HVal.arr [some "a", some "b"])] := by
  constructor
  · rfl
  · decide

/-! ### C7 — one argument per descriptor -/

/-- C7: the claim fails on `mapParams` of src/unnamed/part_004: after a
constructor-reference descriptor in any non-final position the generator
executes `return` (lines 30, 37, 40), so the remaining descriptors are
never resolved — here a two-descriptor list produces a single argument.
The sibling implementation in src/unnamed/part_005 (`continue`,
lines 30, 35, 40) resolves both descriptors at the same input. -/
theorem mapParams_truncation :
    mapParams ⟨[(5, Scope.SINGLETON)], []⟩ 4 ⟨0, []⟩ ⟨[]⟩ [.ctor 5, .leaf "url"]
      = some ([Val.inst 0], ⟨1, [(5, 0)]⟩, ⟨[]⟩) ∧
    mapParamsSeq ⟨[(5, Scope.SINGLETON)], []⟩ 4 ⟨0, []⟩ ⟨[]⟩ [.ctor 5, .leaf "url"]
      = some ([Val.inst 0, Val.leafVal "url"], ⟨1, [(5, 0)]⟩, ⟨[]⟩) := by
  constructor <;>
    simp [mapParams, mapParamsSeq, construct, constructArgsGo, getScope, getParams,
      aget, aset, knownIds]

/-! ### C9 — accepted hook kinds -/

/-- C9 counterexample: `hook` with kind `request` (spec name
before-request) raises the invalid-hook error in src/controller.ts,
whose `RequestLifecycleHook` holds only the three kinds `beforeHandle`,
`afterHandle`, `mapResponse` (line 6), refuting the claim that all six
documented kinds succeed. -/
theorem hookOp_request_rejected :
    hookOp ⟨.num 0, []⟩ "request" "initStore" = .error "Invalid hook: request" := rfl

/-- C9 (amended): `hook(kind, ...)` succeeds — appending an entry
stamped with the controller's current declaration index and
post-incrementing the counter — exactly for the three kinds
`beforeHandle`, `afterHandle`, `mapResponse`, and raises
`Invalid hook: <kind>` for every other value (including `request`,
`parse` and `afterResponse`). -/
theorem hookOp_kinds (c : CtrlReg) (name pk : String) :
    (name ∈ RequestLifecycleHook →
      ∃ c', hookOp c name pk = .ok c' ∧
        aget c'.hookLists name
          = some ((aget c.hookLists name).getD [] ++ [⟨c.handlerIndex, pk⟩]) ∧
        c'.handlerIndex = c.handlerIndex.inc) ∧
    (name ∉ RequestLifecycleHook →
      hookOp c name pk = .error ("Invalid hook: " ++ name)) := by
  constructor
  · intro h
    refine ⟨⟨c.handlerIndex.inc,
      aset c.hookLists name
        ((aget c.hookLists name).getD [] ++ [⟨c.handlerIndex, pk⟩])⟩, ?_, ?_, rfl⟩
    · simp [hookOp, h]
    · exact aget_aset_self _ _ _
  · intro h
    simp [hookOp, h]

/-- C9 witness: registering a `beforeHandle` hook on a fresh controller
succeeds and stamps declaration index 3. -/
theorem hookOp_kinds_witness :
    ∃ c', hookOp ⟨.num 3, []⟩ "beforeHandle" "log" = .ok c' ∧
      aget c'.hookLists "beforeHandle"
        = some ((aget (⟨.num 3, []⟩ : CtrlReg).hookLists "beforeHandle").getD []
            ++ [⟨.num 3, "log"⟩]) ∧
      c'.handlerIndex = (JSNum.num 3).inc :=
  (hookOp_kinds ⟨.num 3, []⟩ "beforeHandle" "log").1 (by decide)

/-! ### C4 — finalization on handler throw -/

/-- C4 counterexample: a route whose handler throws leaves the pipeline
as an exception with the after-handle stage never executed — the
`finally` block of `compileHandler` guards the afterHandle loop with
`if (ctx._fulfilled && afterHandle)` and a throwing handler never set
`ctx._fulfilled`, so the single registered after-handle hook does not
appear in the trace, refuting the finally-style cleanup guarantee. -/
theorem runPipe_throw_skips_after :
    runPipe [] .thr [.ret (some 1)] = ([.handle], .error ()) ∧
    StageLabel.after 0 ∉ (runPipe [] .thr [.ret (some 1)]).1 := by
  constructor
  · rfl
  · decide

theorem runTryAux_allNone : ∀ befores : List HBeh, (∀ b ∈ befores, b = HBeh.ret none) →
    ∀ (i : Nat) (tr : List StageLabel),
    runTryAux befores .thr i tr
      = .exc (tr ++ (List.range' i befores.length).map .before ++ [.handle]) := by
  intro befores
  induction befores with
  | nil => intro _ i tr; simp [runTryAux]
  | cons b rest ih =>
      intro h i tr
      have hb : b = HBeh.ret none := h b (List.mem_cons_self b rest)
      subst hb
      have h2 := ih (fun x hx => h x (List.mem_cons_of_mem _ hx)) (i + 1)
        (tr ++ [StageLabel.before i])
      calc runTryAux (HBeh.ret none :: rest) .thr i tr
          = runTryAux rest .thr (i + 1) (tr ++ [StageLabel.before i]) := rfl
        _ = .exc (tr ++ (List.range' i (rest.length + 1)).map .before ++ [.handle]) := by
            rw [h2, List.range'_succ]
            simp

/-- C4 (amended): when every before-handle hook falls through and the
handler throws, the exception propagates out of the pipeline and no
after-handle hook runs: the trace is exactly the before hooks followed
by the handler, and the result is the propagated exception. -/
theorem runPipe_throw_propagates (befores afters : List HBeh)
    (h : ∀ b ∈ befores, b = HBeh.ret none) :
    runPipe befores .thr afters
      = ((List.range befores.length).map .before ++ [.handle], .error ()) := by
  unfold runPipe
  rw [runTryAux_allNone befores h 0 []]
  simp [List.range_eq_range']

/-- C4 witness: one fall-through before hook, a throwing handler and one
after-handle hook. -/
theorem runPipe_throw_propagates_witness :
    runPipe [HBeh.ret none] .thr [HBeh.ret (some 2)]
      = ((List.range 1).map StageLabel.before ++ [StageLabel.handle], .error ()) :=
  runPipe_throw_propagates [HBeh.ret none] [HBeh.ret (some 2)] (by decide)

/-! ### C5 — generator streaming -/

/-- C5 counterexample: with yields `A, B, C` and the request's abort
signal firing before any remainder pull (`k = 0`), the pull loop still
pulls one value from the generator — `for await` obtains the chunk
before the `if (end) break` check runs — so a value is pulled after the
signal fired, refuting "no further values are pulled". -/
theorem drain_pull_after_abort :
    (onHandleGen [some "A", some "B", some "C"] none (some 0)).2.1 = 1 ∧
    (onHandleGen [some "A", some "B", some "C"] none (some 0)).1 = ["A"] := by
  constructor <;> rfl

theorem drainLoop_all (rest : List String) (p : Nat) (acc : List String) :
    drainLoop none (rest.map some) p acc = (acc ++ rest, p + rest.length) := by
  induction rest generalizing p acc with
  | nil => simp [drainLoop]
  | cons c tl ih => simp [drainLoop, ih]; omega

theorem drainLoop_abort (kk : Nat) (rest : List String) (p : Nat) (acc : List String)
    (h : p ≤ kk) :
    drainLoop (some kk) (rest.map some) p acc
      = (acc ++ rest.take (kk - p), p + min (kk - p + 1) rest.length) := by
  induction rest generalizing p acc with
  | nil => simp [drainLoop]
  | cons c tl ih =>
      by_cases hp : kk < p + 1
      · have hkp : kk = p := by omega
        simp [drainLoop, hp, hkp]
      · have h1 : p + 1 ≤ kk := by omega
        have htake : kk - p = (kk - (p + 1)) + 1 := by omega
        simp only [List.map_cons, drainLoop, decide_eq_true_eq, if_neg hp,
          Option.toList_some, ih (p + 1) (acc ++ [c]) h1]
        rw [Prod.mk.injEq]
        constructor
        · rw [htake]
          simp [List.take_succ_cons]
        · simp only [List.length_cons]
          omega

/-- C5 (amended): a generator handler's first yield is the initial
chunk; fully drained (no abort) the enqueued chunks are exactly the
yields in order, so the body is their concatenation. After the abort
signal fires (following `kk` remainder pulls) at most one further value
is pulled — the loop pulls once more and then breaks — and no value
pulled after the signal is enqueued: the chunks are the initial one plus
the first `kk` remainder yields. -/
theorem genStream_spec (y0 : String) (rest : List String) (retv : Option String) (kk : Nat) :
    (onHandleGen (some y0 :: rest.map some) retv none).1 = y0 :: rest ∧
    (onHandleGen (some y0 :: rest.map some) retv (some kk)).1 = y0 :: rest.take kk ∧
    (onHandleGen (some y0 :: rest.map some) retv (some kk)).2.1 = min (kk + 1) rest.length := by
  refine ⟨?_, ?_, ?_⟩
  · simp [onHandleGen, drainLoop_all]
  · simp [onHandleGen, drainLoop_abort kk rest 0 [y0] (Nat.zero_le kk)]
  · simp [onHandleGen, drainLoop_abort kk rest 0 [y0] (Nat.zero_le kk)]

/-! ### C8 — route-table exclusivity -/

/-- C8: a successful registration makes any conflicting later
registration at the same path fail — the same path+method again, a
method-keyed registration against an existing catch-all, or a catch-all
against any existing entry — and it preserves every previously
registered route unchanged (entries are only ever added, never
overwritten). -/
theorem routeReg_exclusive (t t' : RTable) (p : String) (m : Option String) (v : Nat)
    (h : routeReg t p m v = .ok t') :
    (∀ (m₂ : Option String) (v₂ : Nat), m₂ = m ∨ m₂ = none ∨ m = none →
        ∃ e, routeReg t' p m₂ v₂ = .error e) ∧
    (∀ (q : String) (mq : Option String) (w : Nat), routeAt t q mq = some w →
        routeAt t' q mq = some w) := by
  match m with
  | none =>
      cases hg : aget t (normPath p) with
      | some e => simp [routeReg, hg] at h
      | none =>
          simp only [routeReg, hg, Option.isSome_none, Bool.false_eq_true, if_false,
            Except.ok.injEq] at h
          subst h
          constructor
          · intro m₂ v₂ _
            match m₂ with
            | none =>
                exact ⟨"Route already exists for this path",
                  by simp [routeReg, aget_aset_self]⟩
            | some m2 =>
                exact ⟨"Route already exists for this path",
                  by simp [routeReg, aget_aset_self]⟩
          · intro q mq w hq
            by_cases hqp : q = normPath p
            · subst hqp
              simp [routeAt, hg] at hq
            · have hne : normPath p ≠ q := fun hh => hqp hh.symm
              simp only [routeAt, aget_aset_ne _ _ _ _ hne]
              exact hq
  | some mm =>
      cases hg : aget t (normPath p) with
      | some e =>
          match e with
          | .single w => simp [routeReg, hg] at h
          | .methods ms =>
              cases hgm : aget ms mm with
              | some w => simp [routeReg, hg, hgm] at h
              | none =>
                  simp only [routeReg, hg, hgm, Option.isSome_none, Bool.false_eq_true,
                    if_false, Except.ok.injEq] at h
                  subst h
                  have hself := aget_aset_self t (normPath p)
                    (REntry.methods (ms ++ [(mm, v)]))
                  have happ : aget (ms ++ [(mm, v)]) mm = some v := by
                    rw [aget_append_right ms [(mm, v)] mm hgm]
                    simp [aget]
                  constructor
                  · intro m₂ v₂ hd
                    match m₂ with
                    | none =>
                        exact ⟨"Route already exists for this path",
                          by simp [routeReg, hself]⟩
                    | some m2 =>
                        have hm2 : m2 = mm := by
                          rcases hd with hd | hd | hd
                          · exact Option.some.inj hd
                          · exact absurd hd (by simp)
                          · exact absurd hd (by simp)
                        subst hm2
                        exact ⟨"Route already exists for this method",
                          by simp [routeReg, hself, happ]⟩
                  · intro q mq w hq
                    by_cases hqp : q = normPath p
                    · subst hqp
                      match mq with
                      | none => simp [routeAt, hg] at hq
                      | some q2 =>
                          simp only [routeAt, hg] at hq
                          simp only [routeAt, hself]
                          exact aget_append_left ms [(mm, v)] q2 w hq
                    · have hne : normPath p ≠ q := fun hh => hqp hh.symm
                      simp only [routeAt, aget_aset_ne _ _ _ _ hne]
                      exact hq
      | none =>
          simp only [routeReg, hg, Except.ok.injEq] at h
          subst h
          have hself := aget_aset_self t (normPath p) (REntry.methods [(mm, v)])
          constructor
          · intro m₂ v₂ hd
            match m₂ with
            | none =>
                exact ⟨"Route already exists for this path",
                  by simp [routeReg, hself]⟩
            | some m2 =>
                have hm2 : m2 = mm := by
                  rcases hd with hd | hd | hd
                  · exact Option.some.inj hd
                  · exact absurd hd (by simp)
                  · exact absurd hd (by simp)
                subst hm2
                exact ⟨"Route already exists for this method",
                  by simp [routeReg, hself, aget]⟩
          · intro q mq w hq
            by_cases hqp : q = normPath p
            · subst hqp
              simp [routeAt, hg] at hq
            · have hne : normPath p ≠ q := fun hh => hqp hh.symm
              simp only [routeAt, aget_aset_ne _ _ _ _ hne]
              exact hq

/-- C8 witness: on a table already holding a catch-all at /b,
registering GET /a succeeds; registering GET /a again then fails, and
the /b entry survives unchanged. -/
theorem routeReg_exclusive_witness :
    (∃ e, routeReg [("/b", REntry.single 7), ("/a", REntry.methods [("GET", 0)])]
        "/a" (some "GET") 1 = .error e) ∧
    routeAt [("/b", REntry.single 7), ("/a", REntry.methods [("GET", 0)])] "/b" none
      = some 7 :=
  ⟨(routeReg_exclusive [("/b", REntry.single 7)]
      [("/b", REntry.single 7), ("/a", REntry.methods [("GET", 0)])]
      "/a" (some "GET") 0 (by rfl)).1 (some "GET") 1 (Or.inl rfl),
   (routeReg_exclusive [("/b", REntry.single 7)]
      [("/b", REntry.single 7), ("/a", REntry.methods [("GET", 0)])]
      "/a" (some "GET") 0 (by rfl)).2 "/b" none 7 (by decide)⟩

/-! ### C3 — declaration-index monotonicity -/

/-- C3 counterexample: a route registration followed by `use` of a
one-route controller assigns the indices `[0, NaN]` — `use` sets the
counter to `NaN` before mounting, so the mount's environment record (and
every later registration) is stamped `NaN`, which is not an integer
greater than the previously assigned indices. -/
theorem runOps_not_increasing_after_use :
    ¬ allIncreasingInts (runOps [RegOp.route, RegOp.useOp 1]).assigned := by
  decide

theorem stampsFrom_succ (i : JSNum) (k : Nat) :
    stampsFrom i (k + 1) = i :: stampsFrom i.inc k := by
  cases i with
  | nan => simp [stampsFrom, JSNum.inc, List.replicate_succ]
  | num n =>
      simp only [stampsFrom, JSNum.inc, List.range_succ_eq_map, List.map_cons,
        List.map_map]
      congr 1
      · simp
      · refine List.map_congr_left fun j _ => ?_
        simp only [Function.comp_apply, JSNum.num.injEq]
        push_cast
        ring

theorem JSNum.inc_incN (i : JSNum) (k : Nat) : i.inc.incN k = i.incN (k + 1) := by
  cases i with
  | nan => rfl
  | num n =>
      simp only [JSNum.inc, JSNum.incN, JSNum.num.injEq]
      push_cast
      ring

theorem stampN_spec (k : Nat) (s : IdxState) :
    stampN k s = ⟨s.handlerIndex.incN k, s.assigned ++ stampsFrom s.handlerIndex k⟩ := by
  induction k generalizing s with
  | zero =>
      cases s with
      | mk hi asg => cases hi <;> simp [stampN, JSNum.incN, stampsFrom]
  | succ k ih =>
      rw [stampN, ih]
      cases s with
      | mk hi asg =>
          simp only [stamp, JSNum.inc_incN, stampsFrom_succ]
          simp

theorem stepOp_eq (s : IdxState) (op : RegOp) :
    stepOp s op = stampN (cnt op) ⟨startIdx s.handlerIndex op, s.assigned⟩ := by
  cases op <;> rfl

theorem foldl_stepOp_spec (ops : List RegOp) (s : IdxState) :
    ops.foldl stepOp s = ⟨idxAfter ops s.handlerIndex, s.assigned ++ specFrom ops s.handlerIndex⟩ := by
  induction ops generalizing s with
  | nil => simp [idxAfter, specFrom]
  | cons op rest ih =>
      rw [List.foldl_cons, stepOp_eq, stampN_spec, ih]
      simp [idxAfter, specFrom, List.append_assoc]

theorem specFrom_noUse (ops : List RegOp) (h : hasUse ops = false) (i : Int) :
    specFrom ops (.num i)
      = (List.range (totalCnt ops)).map fun (j : Nat) => JSNum.num (i + (j : Int)) := by
  induction ops generalizing i with
  | nil => simp [specFrom, totalCnt]
  | cons op rest ih =>
      have key : ∀ c : Nat, stampsFrom (.num i) c
          ++ (List.range (totalCnt rest)).map (fun (j : Nat) => JSNum.num ((i + c) + (j : Int)))
          = (List.range (c + totalCnt rest)).map fun (j : Nat) => JSNum.num (i + (j : Int)) := by
        intro c
        rw [List.range_add, List.map_append, List.map_map]
        congr 1
        refine List.map_congr_left fun j _ => ?_
        simp only [Function.comp_apply, JSNum.num.injEq]
        push_cast
        ring
      cases op with
      | useOp k => simp [hasUse] at h
      | route =>
          have h2 : hasUse rest = false := by simpa [hasUse] using h
          simp only [specFrom, startIdx, JSNum.incN, ih h2, totalCnt, List.map_cons,
            List.sum_cons, cnt]
          exact key 1
      | hookReg =>
          have h2 : hasUse rest = false := by simpa [hasUse] using h
          simp only [specFrom, startIdx, JSNum.incN, ih h2, totalCnt, List.map_cons,
            List.sum_cons, cnt]
          exact key 1
      | mountOp k =>
          have h2 : hasUse rest = false := by simpa [hasUse] using h
          simp only [specFrom, startIdx, JSNum.incN, ih h2, totalCnt, List.map_cons,
            List.sum_cons, cnt]
          exact key k

theorem specFrom_nan (ops : List RegOp) :
    specFrom ops .nan = List.replicate (totalCnt ops) .nan := by
  induction ops with
  | nil => simp [specFrom, totalCnt]
  | cons op rest ih =>
      have h1 : startIdx JSNum.nan op = .nan := by cases op <;> rfl
      rw [specFrom, h1]
      have h2 : JSNum.incN .nan (cnt op) = .nan := rfl
      have h3 : totalCnt (op :: rest) = cnt op + totalCnt rest := by simp [totalCnt]
      have h4 : stampsFrom .nan (cnt op) = List.replicate (cnt op) .nan := rfl
      rw [h2, ih, h3, List.replicate_add, h4]

/-- C3 (amended): before any `use` the assigned declaration indices are
exactly the consecutive integers `0, 1, 2, …` (one per stamp, strictly
increasing); but `use` sets the counter to `NaN`, so the registrations
performed by the `use` itself and every registration after it are all
stamped `NaN` — not integers greater than the previous indices. -/
theorem runOps_assigned_spec (ops : List RegOp) :
    (hasUse ops = false →
      (runOps ops).assigned
        = (List.range (totalCnt ops)).map fun (n : Nat) => JSNum.num (n : Int)) ∧
    (∀ pre k post, ops = pre ++ .useOp k :: post →
      (runOps ops).assigned
        = (runOps pre).assigned ++ List.replicate (k + totalCnt post) JSNum.nan) := by
  constructor
  · intro h
    rw [runOps, foldl_stepOp_spec]
    simp only [List.nil_append]
    rw [specFrom_noUse ops h 0]
    simp
  · intro pre k post hsplit
    subst hsplit
    rw [runOps, List.foldl_append]
    rw [show pre.foldl stepOp (⟨.num 0, []⟩ : IdxState) = runOps pre from rfl]
    have e1 : startIdx (runOps pre).handlerIndex (RegOp.useOp k) = .nan := rfl
    have e2 : cnt (RegOp.useOp k) = k := rfl
    rw [List.foldl_cons, stepOp_eq, e1, e2, stampN_spec, foldl_stepOp_spec]
    have e3 : JSNum.incN .nan k = .nan := rfl
    have e4 : stampsFrom .nan k = List.replicate k .nan := rfl
    simp only [e3, e4, specFrom_nan, List.append_assoc, List.replicate_add]

/-- C3 witness: `[route, use 1, hook]` assigns `[0]` then two `NaN`s. -/
theorem runOps_assigned_spec_witness :
    (runOps [RegOp.route, RegOp.useOp 1, RegOp.hookReg]).assigned
      = (runOps [RegOp.route]).assigned
        ++ List.replicate (1 + totalCnt [RegOp.hookReg]) JSNum.nan :=
  (runOps_assigned_spec [RegOp.route, RegOp.useOp 1, RegOp.hookReg]).2
    [RegOp.route] 1 [RegOp.hookReg] rfl

/-! ### C1 — effective hook chains -/

theorem flatMap_congr {α β : Type} (l : List α) (f g : α → List β)
    (h : ∀ a ∈ l, f a = g a) : l.flatMap f = l.flatMap g := by
  induction l with
  | nil => rfl
  | cons a tl ih =>
      simp only [List.flatMap_cons]
      rw [h a (List.mem_cons_self a tl), ih fun x hx => h x (List.mem_cons_of_mem _ hx)]

theorem attach_flatMap {α β : Type} (l : List α) (f : α → List β) :
    (l.attach.flatMap fun e => f e.1) = l.flatMap f := by
  induction l with
  | nil => rfl
  | cons a tl ih =>
      simp only [List.attach_cons, List.flatMap_cons, List.flatMap_map]
      rw [show (tl.attach.flatMap fun x => f x.1) = tl.flatMap f from ih]

/-- An environment record created by `mount`/`use` carries no environment
of its own, so its recursive hook contribution is its controller's used
hooks plus its index-filtered local hooks. -/
theorem hooksOf_flat_entry (k : HookKind) (e : RouteT) (h : e.envOf = []) :
    hooksOf k e = envContrib k e := by
  obtain ⟨c, i, env⟩ := e
  simp only [RouteT.envOf] at h
  subst h
  cases k <;>
    simp [hooksOf, envContrib, usedOf, localBefore, localAfter, RouteT.ctrlOf, RouteT.idxOf]

/-- C1: for a route whose environment records are in the shape the code
creates (no nested environment), the computed `beforeHandle` chain is
the environment chain walked in reverse — each ancestor contributing its
used controllers' hooks and its local hooks filtered against the mount's
own declaration index — then the full hook lists of the route's used
controllers, then the local hooks declared strictly before the route;
`afterHandle` and `mapResponse` are the exact mirror, walking the
environment forward with the outermost contribution last. -/
theorem hooksOf_flat (k : HookKind) (c : CtrlHooks) (idx : JSNum) (env : List RouteT)
    (h : ∀ e ∈ env, e.envOf = []) :
    hooksOf k (.mk c idx env) = flatChain k c idx env := by
  cases k with
  | beforeHandle =>
      have h1 : (env.reverse.attach.flatMap fun e => hooksOf HookKind.beforeHandle e.1)
          = env.reverse.flatMap (envContrib HookKind.beforeHandle) := by
        rw [attach_flatMap]
        exact flatMap_congr _ _ _ fun e he =>
          hooksOf_flat_entry _ e (h e (List.mem_reverse.mp he))
      rw [hooksOf, h1]
      rfl
  | afterHandle =>
      have h1 : (env.attach.flatMap fun e => hooksOf HookKind.afterHandle e.1)
          = env.flatMap (envContrib HookKind.afterHandle) := by
        rw [attach_flatMap]
        exact flatMap_congr _ _ _ fun e he => hooksOf_flat_entry _ e (h e he)
      rw [hooksOf, h1]
      rfl
  | mapResponse =>
      have h1 : (env.attach.flatMap fun e => hooksOf HookKind.mapResponse e.1)
          = env.flatMap (envContrib HookKind.mapResponse) := by
        rw [attach_flatMap]
        exact flatMap_congr _ _ _ fun e he => hooksOf_flat_entry _ e (h e he)
      rw [hooksOf, h1]
      rfl

/-- C1 witness: a route (index 5) with one flat ancestor mount record
(index 2) on a controller with one used controller. -/
theorem hooksOf_flat_witness :
    hooksOf .beforeHandle
      (.mk ⟨[⟨[⟨10, .num 0⟩], [], []⟩], ⟨[⟨11, .num 1⟩], [], []⟩⟩ (.num 5)
        [.mk ⟨[], ⟨[⟨12, .num 1⟩, ⟨13, .num 3⟩], [], []⟩⟩ (.num 2) []])
      = flatChain .beforeHandle ⟨[⟨[⟨10, .num 0⟩], [], []⟩], ⟨[⟨11, .num 1⟩], [], []⟩⟩
        (.num 5) [.mk ⟨[], ⟨[⟨12, .num 1⟩, ⟨13, .num 3⟩], [], []⟩⟩ (.num 2) []] :=
  hooksOf_flat .beforeHandle _ _ _ (by
    intro e he
    rw [List.mem_singleton] at he
    subst he
    rfl)

/-! ### C10 — `checkBodyPresence` termination -/

theorem length_filter_mono {α : Type} (l : List α) (p q : α → Bool)
    (h : ∀ a, p a = true → q a = true) :
    (l.filter p).length ≤ (l.filter q).length := by
  induction l with
  | nil => simp
  | cons a tl ih =>
      cases hp : p a with
      | true =>
          have hq := h a hp
          simp only [List.filter_cons, hp, hq, if_true, List.length_cons]
          omega
      | false =>
          cases hq : q a <;>
            simp only [List.filter_cons, hp, hq, if_true, if_false, List.length_cons,
              Bool.false_eq_true, ite_false, ite_true] <;>
            omega

theorem length_filter_lt {α : Type} (l : List α) (p q : α → Bool) (a : α) (ha : a ∈ l)
    (hpa : p a = false) (hqa : q a = true) (h : ∀ x, p x = true → q x = true) :
    (l.filter p).length < (l.filter q).length := by
  induction l with
  | nil => simp at ha
  | cons b tl ih =>
      rcases List.mem_cons.mp ha with rfl | hmem
      · simp only [List.filter_cons, hpa, hqa, Bool.false_eq_true, ite_false, ite_true,
          List.length_cons]
        have := length_filter_mono tl p q h
        omega
      · cases hpb : p b with
        | true =>
            have hqb := h b hpb
            simp only [List.filter_cons, hpb, hqb, if_true, List.length_cons]
            exact Nat.succ_lt_succ (ih hmem)
        | false =>
            cases hqb : q b <;>
              simp only [List.filter_cons, hpb, hqb, Bool.false_eq_true, ite_false,
                ite_true, List.length_cons] <;>
              have := ih hmem <;> omega

theorem keysLeft_mono (env : ParamEnv) (c c2 : List Nat) (h : ∀ x ∈ c, x ∈ c2) :
    keysLeft env c2 ≤ keysLeft env c := by
  refine length_filter_mono _ _ _ fun a hp => ?_
  simp only [decide_eq_true_eq] at hp ⊢
  intro hin
  exact hp (h a hin)

theorem keysLeft_cons_lt (env : ParamEnv) (c : List Nat) (t : Nat)
    (hk : t ∈ env.map Prod.fst) (hc : t ∉ c) :
    keysLeft env (t :: c) < keysLeft env c := by
  refine length_filter_lt _ _ _ t (List.mem_dedup.mpr hk) ?_ ?_ fun x hp => ?_
  · simp
  · simp [hc]
  · simp only [decide_eq_true_eq] at hp ⊢
    intro hin
    exact hp (List.mem_cons_of_mem _ hin)

theorem aget_eq_none_of_not_mem {β : Type} (l : List (Nat × β)) (t : Nat)
    (h : t ∉ l.map Prod.fst) : aget l t = none := by
  induction l with
  | nil => rfl
  | cons p rest ih =>
      obtain ⟨k, v⟩ := p
      simp only [List.map_cons, List.mem_cons, not_or] at h
      simp only [aget, if_neg (Ne.symm h.1)]
      exact ih h.2

theorem checkBody_subset (env : ParamEnv) : ∀ fuel : Nat, ∀ (l : List ParamTy)
    (c : List Nat) (b : Bool) (c2 : List Nat),
    checkBody env fuel l c = some (b, c2) → ∀ x ∈ c, x ∈ c2 := by
  intro fuel
  induction fuel using Nat.strong_induction_on with
  | _ fuel ihf =>
      intro l
      induction l with
      | nil =>
          intro c b c2 h
          simp only [checkBody, Option.some.injEq, Prod.mk.injEq] at h
          rw [← h.2]
          exact fun x hx => hx
      | cons hd tl ihl =>
          intro c b c2 h
          cases hd with
          | leaf id =>
              simp only [checkBody] at h
              split at h
              · simp only [Option.some.injEq, Prod.mk.injEq] at h
                rw [← h.2]
                exact fun x hx => hx
              · exact ihl c b c2 h
          | ctor t =>
              cases fuel with
              | zero =>
                  simp only [checkBody] at h
                  split at h
                  · exact ihl c b c2 h
                  · simp at h
              | succ f =>
                  simp only [checkBody] at h
                  split at h
                  · exact ihl c b c2 h
                  · revert h
                    cases hin : checkBody env f (getParams env t) (t :: c) with
                    | none => intro h; simp at h
                    | some r =>
                        obtain ⟨b1, c1⟩ := r
                        have hsub1 : ∀ x ∈ t :: c, x ∈ c1 :=
                          ihf f (Nat.lt_succ_self f) (getParams env t) (t :: c) b1 c1 hin
                        cases b1 with
                        | true =>
                            intro h
                            simp only [Option.some.injEq, Prod.mk.injEq] at h
                            rw [← h.2]
                            exact fun x hx => hsub1 x (List.mem_cons_of_mem _ hx)
                        | false =>
                            intro h
                            have hsub2 := ihl c1 b c2 h
                            exact fun x hx =>
                              hsub2 x (hsub1 x (List.mem_cons_of_mem _ hx))

/-- C10: `checkBodyPresence` terminates on every parameter-descriptor
set, including cyclically referencing injectable constructors: whenever
the fuel exceeds the number of environment constructors not yet in the
`checked` set, the embedded recursion completes — the `checked` set
guarantees each constructor is descended into at most once, so the
recursion depth is bounded. -/
theorem checkBody_terminates (env : ParamEnv) : ∀ fuel : Nat, ∀ (l : List ParamTy)
    (c : List Nat), keysLeft env c < fuel → (checkBody env fuel l c).isSome = true := by
  intro fuel
  induction fuel using Nat.strong_induction_on with
  | _ fuel ihf =>
      intro l
      induction l with
      | nil =>
          intro c _
          rw [checkBody]
          rfl
      | cons hd tl ihl =>
          intro c hfu
          cases hd with
          | leaf id =>
              simp only [checkBody]
              split
              · rfl
              · exact ihl c hfu
          | ctor t =>
              cases fuel with
              | zero => omega
              | succ f =>
                  simp only [checkBody]
                  split
                  · exact ihl c hfu
                  · rename_i hnotc
                    have hinner : (checkBody env f (getParams env t) (t :: c)).isSome = true := by
                      by_cases hk : t ∈ env.map Prod.fst
                      · have hlt := keysLeft_cons_lt env c t hk hnotc
                        exact ihf f (Nat.lt_succ_self f) (getParams env t) (t :: c)
                          (by omega)
                      · have hget : getParams env t = [] := by
                          unfold getParams
                          rw [aget_eq_none_of_not_mem env t hk]
                          rfl
                        rw [hget, checkBody]
                        rfl
                    cases hin : checkBody env f (getParams env t) (t :: c) with
                    | none => rw [hin] at hinner; simp at hinner
                    | some r =>
                        obtain ⟨b1, c1⟩ := r
                        cases b1 with
                        | true => rfl
                        | false =>
                            have hsub : ∀ x ∈ c, x ∈ c1 := fun x hx =>
                              checkBody_subset env f (getParams env t) (t :: c) false c1
                                hin x (List.mem_cons_of_mem _ hx)
                            have hle := keysLeft_mono env c c1 hsub
                            exact ihl c1 (by omega)

/-- C10 witness: a two-constructor cycle (0 references 1, 1 references 0)
— the recursion completes with fuel 3 despite the cyclic dependency
graph. -/
theorem checkBody_terminates_witness :
    (checkBody [(0, [ParamTy.ctor 1]), (1, [ParamTy.ctor 0])] 3 [ParamTy.ctor 0] []).isSome
      = true :=
  checkBody_terminates [(0, [ParamTy.ctor 1]), (1, [ParamTy.ctor 0])] 3 [ParamTy.ctor 0] []
    (by decide)

/-! ### C2 — DI scope identity -/

theorem constructArgsGo_mono (recur : DIState → Nat → Option (Nat × DIState))
    (hrec : ∀ st t i st2, recur st t = some (i, st2) → st.nextId ≤ st2.nextId) :
    ∀ (l : List ParamTy) (st : DIState) (is : List Nat) (st2 : DIState),
    constructArgsGo recur st l = some (is, st2) → st.nextId ≤ st2.nextId := by
  intro l
  induction l with
  | nil =>
      intro st is st2 h
      simp only [constructArgsGo, Option.some.injEq, Prod.mk.injEq] at h
      rw [← h.2]
  | cons p rest ih =>
      cases p with
      | leaf id =>
          intro st is st2 h
          simp [constructArgsGo] at h
      | ctor t =>
          intro st is st2 h
          rw [constructArgsGo] at h
          revert h
          cases hc : recur st t with
          | none => intro h; simp at h
          | some r =>
              obtain ⟨i, st1⟩ := r
              intro h
              dsimp only at h
              revert h
              cases ha : constructArgsGo recur st1 rest with
              | none => intro h; simp at h
              | some r2 =>
                  obtain ⟨is2, st3⟩ := r2
                  intro h
                  dsimp only at h
                  simp only [Option.some.injEq, Prod.mk.injEq] at h
                  have h1 := hrec st t i st1 hc
                  have h2 := ih st1 is2 st3 ha
                  rw [← h.2]
                  omega

theorem construct_mono (env : DIEnv) : ∀ (fuel : Nat) (st : DIState) (t i : Nat)
    (st2 : DIState), construct env fuel st t = some (i, st2) → st.nextId ≤ st2.nextId := by
  intro fuel
  induction fuel with
  | zero =>
      intro st t i st2 h
      rw [construct] at h
      revert h
      cases hc : aget st.singles t with
      | some j =>
          intro h
          dsimp only at h
          simp only [Option.some.injEq, Prod.mk.injEq] at h
          rw [← h.2]
      | none => intro h; simp at h
  | succ f ih =>
      intro st t i st2 h
      rw [construct] at h
      revert h
      cases hc : aget st.singles t with
      | some j =>
          intro h
          dsimp only at h
          simp only [Option.some.injEq, Prod.mk.injEq] at h
          rw [← h.2]
      | none =>
          intro h
          dsimp only at h
          split at h
          · revert h
            cases ha : constructArgsGo (fun st1 t1 => construct env f st1 t1) st
                (getParams env.params t) with
            | none => intro h; simp at h
            | some r =>
                obtain ⟨is, st1⟩ := r
                intro h
                dsimp only at h
                simp only [Option.some.injEq, Prod.mk.injEq] at h
                have h1 := constructArgsGo_mono (fun st1 t1 => construct env f st1 t1)
                  (fun sa ta ia sb hh => ih sa ta ia sb hh)
                  (getParams env.params t) st is st1 ha
                rw [← h.2]
                dsimp only
                omega
          · simp at h

theorem construct_cached (env : DIEnv) (fuel : Nat) (st : DIState) (t i : Nat)
    (st2 : DIState) (h : construct env fuel st t = some (i, st2)) :
    aget st2.singles t = some i := by
  cases fuel with
  | zero =>
      rw [construct] at h
      revert h
      cases hc : aget st.singles t with
      | some j =>
          intro h
          dsimp only at h
          simp only [Option.some.injEq, Prod.mk.injEq] at h
          rw [← h.2, ← h.1]
          exact hc
      | none => intro h; simp at h
  | succ f =>
      rw [construct] at h
      revert h
      cases hc : aget st.singles t with
      | some j =>
          intro h
          dsimp only at h
          simp only [Option.some.injEq, Prod.mk.injEq] at h
          rw [← h.2, ← h.1]
          exact hc
      | none =>
          intro h
          dsimp only at h
          split at h
          · revert h
            cases ha : constructArgsGo (fun st1 t1 => construct env f st1 t1) st
                (getParams env.params t) with
            | none => intro h; simp at h
            | some r =>
                obtain ⟨is, st1⟩ := r
                intro h
                dsimp only at h
                simp only [Option.some.injEq, Prod.mk.injEq] at h
                rw [← h.2, ← h.1]
                exact aget_aset_self _ _ _
          · simp at h

theorem mapParams_noscope (env : DIEnv) (fuel : Nat) (st : DIState) (ctx : Ctx)
    (t : Nat) (tail : List ParamTy) (hs : getScope env t = none) :
    mapParams env fuel st ctx (.ctor t :: tail) = none := by
  cases fuel <;> rw [mapParams, hs]

theorem mapParams_singleton_unfold (env : DIEnv) (fuel : Nat) (st : DIState) (ctx : Ctx)
    (t : Nat) (tail : List ParamTy) (hs : getScope env t = some .SINGLETON) :
    mapParams env fuel st ctx (.ctor t :: tail)
      = match construct env fuel st t with
        | none => none
        | some (i, st1) => some ([Val.inst i], st1, ctx) := by
  cases fuel <;> rw [mapParams, hs]

theorem mapParams_request_hit (env : DIEnv) (fuel : Nat) (st : DIState) (ctx : Ctx)
    (t : Nat) (tail : List ParamTy) (i : Nat) (hs : getScope env t = some .REQUEST)
    (hq : aget ctx.instances t = some i) :
    mapParams env fuel st ctx (.ctor t :: tail) = some ([Val.inst i], st, ctx) := by
  cases fuel <;> rw [mapParams, hs, hq]

theorem mapParams_request_miss_zero (env : DIEnv) (st : DIState) (ctx : Ctx)
    (t : Nat) (tail : List ParamTy) (hs : getScope env t = some .REQUEST)
    (hq : aget ctx.instances t = none) :
    mapParams env 0 st ctx (.ctor t :: tail) = none := by
  rw [mapParams, hs, hq]

theorem mapParams_request_miss (env : DIEnv) (f : Nat) (st : DIState) (ctx : Ctx)
    (t : Nat) (tail : List ParamTy) (hs : getScope env t = some .REQUEST)
    (hq : aget ctx.instances t = none) :
    mapParams env (f + 1) st ctx (.ctor t :: tail)
      = match mapParams env f st ctx (getParams env.params t) with
        | none => none
        | some (_, st1, ctx1) =>
            some ([Val.inst st1.nextId], ⟨st1.nextId + 1, st1.singles⟩,
              ⟨aset ctx1.instances t st1.nextId⟩) := by
  rw [mapParams, hs, hq]

theorem mapParams_instance_zero (env : DIEnv) (st : DIState) (ctx : Ctx)
    (t : Nat) (tail : List ParamTy) (hs : getScope env t = some .INSTANCE) :
    mapParams env 0 st ctx (.ctor t :: tail) = none := by
  rw [mapParams, hs]

theorem mapParams_instance_unfold (env : DIEnv) (f : Nat) (st : DIState) (ctx : Ctx)
    (t : Nat) (tail : List ParamTy) (hs : getScope env t = some .INSTANCE) :
    mapParams env (f + 1) st ctx (.ctor t :: tail)
      = match mapParams env f st ctx (getParams env.params t) with
        | none => none
        | some (_, st1, ctx1) =>
            some ([Val.inst st1.nextId], ⟨st1.nextId + 1, st1.singles⟩, ctx1) := by
  rw [mapParams, hs]

theorem mapParams_mono (env : DIEnv) : ∀ fuel : Nat, ∀ l : List ParamTy,
    ∀ (st : DIState) (ctx : Ctx) (vs : List Val) (st2 : DIState) (ctx2 : Ctx),
    mapParams env fuel st ctx l = some (vs, st2, ctx2) → st.nextId ≤ st2.nextId := by
  intro fuel
  induction fuel using Nat.strong_induction_on with
  | _ fuel ihf =>
      intro l
      induction l with
      | nil =>
          intro st ctx vs st2 ctx2 h
          rw [mapParams] at h
          simp only [Option.some.injEq, Prod.mk.injEq] at h
          rw [← h.2.1]
      | cons p rest ihl =>
          cases p with
          | leaf id =>
              intro st ctx vs st2 ctx2 h
              rw [mapParams] at h
              split at h
              · revert h
                cases hm : mapParams env fuel st ctx rest with
                | none => intro h; simp at h
                | some r =>
                    obtain ⟨vs1, st1, ctx1⟩ := r
                    intro h
                    dsimp only at h
                    simp only [Option.some.injEq, Prod.mk.injEq] at h
                    have h1 := ihl st ctx vs1 st1 ctx1 hm
                    rw [← h.2.1]
                    exact h1
              · simp at h
          | ctor t =>
              intro st ctx vs st2 ctx2 h
              cases hs : getScope env t with
              | none =>
                  rw [mapParams_noscope env fuel st ctx t rest hs] at h
                  simp at h
              | some sc =>
                  cases sc with
                  | SINGLETON =>
                      rw [mapParams_singleton_unfold env fuel st ctx t rest hs] at h
                      revert h
                      cases hc : construct env fuel st t with
                      | none => intro h; simp at h
                      | some r =>
                          obtain ⟨i, st1⟩ := r
                          intro h
                          dsimp only at h
                          simp only [Option.some.injEq, Prod.mk.injEq] at h
                          have h1 := construct_mono env fuel st t i st1 hc
                          rw [← h.2.1]
                          exact h1
                  | REQUEST =>
                      cases hq : aget ctx.instances t with
                      | some i =>
                          rw [mapParams_request_hit env fuel st ctx t rest i hs hq] at h
                          simp only [Option.some.injEq, Prod.mk.injEq] at h
                          rw [← h.2.1]
                      | none =>
                          cases fuel with
                          | zero =>
                              rw [mapParams_request_miss_zero env st ctx t rest hs hq] at h
                              simp at h
                          | succ f =>
                              rw [mapParams_request_miss env f st ctx t rest hs hq] at h
                              revert h
                              cases hm : mapParams env f st ctx (getParams env.params t) with
                              | none => intro h; simp at h
                              | some r =>
                                  obtain ⟨vs1, st1, ctx1⟩ := r
                                  intro h
                                  dsimp only at h
                                  simp only [Option.some.injEq, Prod.mk.injEq] at h
                                  have h1 := ihf f (Nat.lt_succ_self f)
                                    (getParams env.params t) st ctx vs1 st1 ctx1 hm
                                  rw [← h.2.1]
                                  dsimp only
                                  omega
                  | INSTANCE =>
                      cases fuel with
                      | zero =>
                          rw [mapParams_instance_zero env st ctx t rest hs] at h
                          simp at h
                      | succ f =>
                          rw [mapParams_instance_unfold env f st ctx t rest hs] at h
                          revert h
                          cases hm : mapParams env f st ctx (getParams env.params t) with
                          | none => intro h; simp at h
                          | some r =>
                              obtain ⟨vs1, st1, ctx1⟩ := r
                              intro h
                              dsimp only at h
                              simp only [Option.some.injEq, Prod.mk.injEq] at h
                              have h1 := ihf f (Nat.lt_succ_self f)
                                (getParams env.params t) st ctx vs1 st1 ctx1 hm
                              rw [← h.2.1]
                              dsimp only
                              omega

theorem mapParams_request_cached (env : DIEnv) (fuel : Nat) (st : DIState) (ctx : Ctx)
    (t i : Nat) (st2 : DIState) (ctx2 : Ctx) (hs : getScope env t = some .REQUEST)
    (h : mapParams env fuel st ctx [.ctor t] = some ([.inst i], st2, ctx2)) :
    aget ctx2.instances t = some i := by
  cases hq : aget ctx.instances t with
  | some j =>
      rw [mapParams_request_hit env fuel st ctx t [] j hs hq] at h
      simp only [Option.some.injEq, Prod.mk.injEq, List.cons.injEq, Val.inst.injEq,
        and_true] at h
      rw [← h.2.2, ← h.1]
      exact hq
  | none =>
      cases fuel with
      | zero =>
          rw [mapParams_request_miss_zero env st ctx t [] hs hq] at h
          simp at h
      | succ f =>
          rw [mapParams_request_miss env f st ctx t [] hs hq] at h
          revert h
          cases hm : mapParams env f st ctx (getParams env.params t) with
          | none => intro h; simp at h
          | some r =>
              obtain ⟨vs1, st1, ctx1⟩ := r
              intro h
              dsimp only at h
              simp only [Option.some.injEq, Prod.mk.injEq, List.cons.injEq,
                Val.inst.injEq, and_true] at h
              rw [← h.2.2, ← h.1]
              exact aget_aset_self _ _ _

/-- C2: resolving through the constructor-reference branch of
`mapParams` (src/unnamed/part_004 lines 26-43) together with `construct`
(src/service.ts lines 150-158): a SINGLETON type resolved twice yields
the identical instance (cached in the global singleton bucket); an
INSTANCE type resolved twice yields two distinct instances; a REQUEST
type resolved twice against the same request context yields the
identical instance and leaves all state unchanged, while resolving
against a fresh (empty) request context yields a distinct new
instance. -/
theorem di_scope_properties (env : DIEnv) (t : Nat) :
    (∀ f1 f2 st ctx i st1 ctx1 j st2 ctx2,
        getScope env t = some .SINGLETON →
        mapParams env f1 st ctx [.ctor t] = some ([.inst i], st1, ctx1) →
        mapParams env f2 st1 ctx1 [.ctor t] = some ([.inst j], st2, ctx2) →
        j = i) ∧
    (∀ f1 f2 st ctx i st1 ctx1 j st2 ctx2,
        getScope env t = some .INSTANCE →
        mapParams env f1 st ctx [.ctor t] = some ([.inst i], st1, ctx1) →
        mapParams env f2 st1 ctx1 [.ctor t] = some ([.inst j], st2, ctx2) →
        i ≠ j) ∧
    (∀ f1 f2 st ctx i st1 ctx1,
        getScope env t = some .REQUEST →
        mapParams env f1 st ctx [.ctor t] = some ([.inst i], st1, ctx1) →
        mapParams env f2 st1 ctx1 [.ctor t] = some ([.inst i], st1, ctx1)) ∧
    (∀ f1 f2 st ctx i st1 ctx1 j st2 ctx2,
        getScope env t = some .REQUEST →
        aget ctx.instances t = none →
        mapParams env f1 st ctx [.ctor t] = some ([.inst i], st1, ctx1) →
        mapParams env f2 st1 ⟨[]⟩ [.ctor t] = some ([.inst j], st2, ctx2) →
        i ≠ j) := by
  refine ⟨?_, ?_, ?_, ?_⟩
  · intro f1 f2 st ctx i st1 ctx1 j st2 ctx2 hs h1 h2
    rw [mapParams_singleton_unfold env f1 st ctx t [] hs] at h1
    rw [mapParams_singleton_unfold env f2 st1 ctx1 t [] hs] at h2
    revert h1
    cases hc1 : construct env f1 st t with
    | none => intro h1; simp at h1
    | some r =>
        obtain ⟨i1, stA⟩ := r
        intro h1
        dsimp only at h1
        simp only [Option.some.injEq, Prod.mk.injEq, List.cons.injEq, Val.inst.injEq,
          and_true] at h1
        obtain ⟨hi1, hstA, -⟩ := h1
        subst hi1
        subst hstA
        have hcache := construct_cached env f1 st t i1 stA hc1
        have hctr : construct env f2 stA t = some (i1, stA) := by
          cases f2 <;> rw [construct, hcache]
        rw [hctr] at h2
        dsimp only at h2
        simp only [Option.some.injEq, Prod.mk.injEq, List.cons.injEq, Val.inst.injEq,
          and_true] at h2
        exact h2.1.symm
  · intro f1 f2 st ctx i st1 ctx1 j st2 ctx2 hs h1 h2
    cases f1 with
    | zero =>
        rw [mapParams_instance_zero env st ctx t [] hs] at h1
        simp at h1
    | succ g1 =>
        rw [mapParams_instance_unfold env g1 st ctx t [] hs] at h1
        revert h1
        cases hm1 : mapParams env g1 st ctx (getParams env.params t) with
        | none => intro h1; simp at h1
        | some r1 =>
            obtain ⟨vs1, stA, ctxA⟩ := r1
            intro h1
            dsimp only at h1
            simp only [Option.some.injEq, Prod.mk.injEq, List.cons.injEq, Val.inst.injEq,
              and_true] at h1
            obtain ⟨hi, hstA, hctxA⟩ := h1
            cases f2 with
            | zero =>
                rw [mapParams_instance_zero env st1 ctx1 t [] hs] at h2
                simp at h2
            | succ g2 =>
                rw [mapParams_instance_unfold env g2 st1 ctx1 t [] hs] at h2
                revert h2
                cases hm2 : mapParams env g2 st1 ctx1 (getParams env.params t) with
                | none => intro h2; simp at h2
                | some r2 =>
                    obtain ⟨vs2, stB, ctxB⟩ := r2
                    intro h2
                    dsimp only at h2
                    simp only [Option.some.injEq, Prod.mk.injEq, List.cons.injEq,
                      Val.inst.injEq, and_true] at h2
                    obtain ⟨hj, hstB, hctxB⟩ := h2
                    have hmono := mapParams_mono env g2 (getParams env.params t)
                      st1 ctx1 vs2 stB ctxB hm2
                    rw [← hstA] at hmono
                    dsimp only at hmono
                    omega
  · intro f1 f2 st ctx i st1 ctx1 hs h1
    have hcache := mapParams_request_cached env f1 st ctx t i st1 ctx1 hs h1
    exact mapParams_request_hit env f2 st1 ctx1 t [] i hs hcache
  · intro f1 f2 st ctx i st1 ctx1 j st2 ctx2 hs hnone h1 h2
    cases f1 with
    | zero =>
        rw [mapParams_request_miss_zero env st ctx t [] hs hnone] at h1
        simp at h1
    | succ g1 =>
        rw [mapParams_request_miss env g1 st ctx t [] hs hnone] at h1
        revert h1
        cases hm1 : mapParams env g1 st ctx (getParams env.params t) with
        | none => intro h1; simp at h1
        | some r1 =>
            obtain ⟨vs1, stA, ctxA⟩ := r1
            intro h1
            dsimp only at h1
            simp only [Option.some.injEq, Prod.mk.injEq, List.cons.injEq, Val.inst.injEq,
              and_true] at h1
            obtain ⟨hi, hstA, hctxA⟩ := h1
            have hq2 : aget (Ctx.instances ⟨[]⟩) t = none := rfl
            cases f2 with
            | zero =>
                rw [mapParams_request_miss_zero env st1 ⟨[]⟩ t [] hs hq2] at h2
                simp at h2
            | succ g2 =>
                rw [mapParams_request_miss env g2 st1 ⟨[]⟩ t [] hs hq2] at h2
                revert h2
                cases hm2 : mapParams env g2 st1 ⟨[]⟩ (getParams env.params t) with
                | none => intro h2; simp at h2
                | some r2 =>
                    obtain ⟨vs2, stB, ctxB⟩ := r2
                    intro h2
                    dsimp only at h2
                    simp only [Option.some.injEq, Prod.mk.injEq, List.cons.injEq,
                      Val.inst.injEq, and_true] at h2
                    obtain ⟨hj, hstB, hctxB⟩ := h2
                    have hmono := mapParams_mono env g2 (getParams env.params t)
                      st1 ⟨[]⟩ vs2 stB ctxB hm2
                    rw [← hstA] at hmono
                    dsimp only at hmono
                    omega

/-- C2 witness: with type 1 registered INSTANCE (no constructor
parameters), two consecutive resolutions allocate instance ids 0 and 1,
which are distinct. -/
theorem di_scope_properties_witness :
    mapParams ⟨[(0, Scope.SINGLETON), (1, Scope.INSTANCE), (2, Scope.REQUEST)], []⟩
        5 ⟨0, []⟩ ⟨[]⟩ [.ctor 1] = some ([Val.inst 0], ⟨1, []⟩, ⟨[]⟩) ∧
    mapParams ⟨[(0, Scope.SINGLETON), (1, Scope.INSTANCE), (2, Scope.REQUEST)], []⟩
        5 ⟨1, []⟩ ⟨[]⟩ [.ctor 1] = some ([Val.inst 1], ⟨2, []⟩, ⟨[]⟩) ∧
    (0 : Nat) ≠ 1 :=
  ⟨by simp [mapParams, getScope, getParams, aget, knownIds],
   by simp [mapParams, getScope, getParams, aget, knownIds],
   (di_scope_properties ⟨[(0, Scope.SINGLETON), (1, Scope.INSTANCE), (2, Scope.REQUEST)], []⟩
      1).2.1 5 5 ⟨0, []⟩ ⟨[]⟩ 0 ⟨1, []⟩ ⟨[]⟩ 1 ⟨2, []⟩ ⟨[]⟩
      (by simp [getScope, aget])
      (by simp [mapParams, getScope, getParams, aget, knownIds])
      (by simp [mapParams, getScope, getParams, aget, knownIds])⟩

end Router
